import Mathlib

/-!
# Verification of the venus-sealer `TerminateBatcher`

A shallow embedding of `storage-sealing/terminate_batch.go`.

The Go code aggregates sector-termination requests into a pending map
`todo : SectorLocation → BitField`, runs a background loop, and on each
trigger calls `processBatch` which selects declarations under protocol
caps, submits one `TerminateSectors` message, and fans the resulting
message id out to registered waiter channels.

Modelling conventions:
* Bitfields (`go-bitfield` run-length sets of `uint64`) are `Finset ℕ`.
  `Count` is `Finset.card`, `IntersectBitField` is `∩`,
  `SubtractBitField` is `\`, `Slice(0, n)` takes the first `n` set bits
  in ascending order (erroring when fewer than `n` bits are present),
  `ForEach` iterates set bits in ascending order.
* Go maps are association lists; the list order stands for the
  (unspecified) Go map iteration order, so theorems quantify over it.
* The chain view, messager and address selector are oracles recorded in
  a `Chain` structure; `none`/`false` marks an erroring call.
* Protocol constants (`WPoStPeriodDeadlines`, `AddressedSectorsMax`,
  `DeclarationsMax`) and the batcher variables (`TerminateBatchMax`,
  `TerminateBatchMin`) are fields of a `Cfg` parameter.
* A Go runtime panic (out-of-range slice index) is the `none` result of
  the embedding; every ordinary `(value, error)` return is `some`.
-/

open List

/-- Modelled from the spec: `SectorLocation` is defined outside the
provided sources; §3 of the spec describes it as the pair
(deadline-index, partition-index), equal iff both indices match. -/
structure SectorLocation where
  deadline : Nat
  partition : Nat
deriving DecidableEq

/-- `go-bitfield` bitfields as finite sets of sector numbers. -/
abbrev BitField := Finset Nat

/-- The set bits of a bitfield in ascending order (the order in which
`BitField.ForEach` visits them). -/
def bfList (bf : BitField) : List Nat :=
  (List.range (bf.sup id + 1)).filter (fun x => decide (x ∈ bf))

/-- `BitField.Slice(0, n)`: the first `n` set bits; `go-bitfield`
returns an error when the bitfield holds fewer than `n` bits. -/
def slice0 (bf : BitField) (n : Nat) : Option BitField :=
  if n ≤ bf.card then some ((bfList bf).take n).toFinset else none

/-- One entry of `miner2.TerminateSectorsParams.Terminations`. -/
structure TerminationDeclaration where
  deadline : Nat
  partition : Nat
  sectors : BitField
deriving DecidableEq

/-- Total number of sector bits across a declaration list. -/
def sumBits (ds : List TerminationDeclaration) : Nat :=
  (ds.map (fun d => d.sectors.card)).sum

/-- The batcher's shared state under its mutex: the pending map `todo`
and the waiter map `waiting` (waiter channels are identified by `Nat`
ids; each Go channel is a fresh value, so ids are fresh). -/
structure BState where
  todo : List (SectorLocation × BitField)
  waiting : List (Nat × List Nat)
deriving DecidableEq

/-- Protocol constants and batcher tuning constants used by
`processBatch` (`miner.WPoStPeriodDeadlines`,
`miner.AddressedSectorsMax`, `miner.DeclarationsMax`,
`TerminateBatchMax`, `TerminateBatchMin`). -/
structure Cfg where
  wpostPeriodDeadlines : Nat
  addressedSectorsMax : Nat
  declarationsMax : Nat
  terminateBatchMax : Nat
  terminateBatchMin : Nat

/-- The oracles `processBatch` consults, with their possible failures:
`StateMinerProvingDeadline`, `StateMinerPartitions` (live-sector
bitfield per partition of a deadline), `MarshalCBOR`, `StateMinerInfo`,
the address selector, and `MessagerSendMsg`. -/
structure Chain where
  provingDeadlineIndex : Option Nat
  partitions : Nat → Option (List BitField)
  cborOk : Bool
  minerInfoOk : Bool
  addrSelOk : Bool
  sendResult : Option String

/-- The source's previous-deadline test at line 134:
`(loc.Deadline+1)%miner.WPoStPeriodDeadlines == dl.Index`. -/
def prevDeadlineTest (P dlIdx d : Nat) : Bool :=
  (d + 1) % P == dlIdx

/-- Modelled from the spec: the spec's §9 alternative formulation of the
previous-deadline test, `loc.Deadline == (dl.Index + P − 1) % P`. -/
def prevDeadlineSpec (P dlIdx d : Nat) : Bool :=
  d == (dlIdx + P - 1) % P

/-- The deadline filter at lines 131-136: skip locations in the next,
current, or previous proving deadline. -/
def deadlineSkip (P dlIdx d : Nat) : Bool :=
  d == (dlIdx + 1) % P || d == dlIdx || prevDeadlineTest P dlIdx d

/-- Outcome of one iteration of the selection loop body for a single
`todo` entry (lines 124-184): skip the entry (`continue`), panic on an
out-of-range partition index, or take a declaration.  `take` carries the
appended declaration, the entry's (possibly shrunk) value, and the
amount `n` added to `total`. -/
inductive StepRes where
  | skip : StepRes
  | panic : StepRes
  | take (d : TerminationDeclaration) (entry : SectorLocation × BitField) (nContrib : Nat) :
      StepRes
deriving DecidableEq

/-- Lines 124-184 of `processBatch` for one `todo` entry: count, the
deadline filter, the zero check, `StateMinerPartitions`, the live-set
intersection, and the `AddressedSectorsMax` cap with its slice and
in-place subtraction. -/
def entryStep (cfg : Cfg) (dlIdx : Nat) (parts : Nat → Option (List BitField))
    (loc : SectorLocation) (sectors : BitField) (total : Nat) : StepRes :=
  if deadlineSkip cfg.wpostPeriodDeadlines dlIdx loc.deadline then .skip
  else if sectors.card < 1 then .skip
  else
    match parts loc.deadline with
    | none => .skip
    | some ps =>
      match ps.get? loc.partition with
      | none => .panic
      | some live =>
        if total + sectors.card > cfg.addressedSectorsMax then
          match slice0 (live ∩ sectors) (cfg.addressedSectorsMax - total) with
          | none => .skip
          | some sliced =>
            .take ⟨loc.deadline, loc.partition, sliced⟩ (loc, sectors \ sliced)
              (cfg.addressedSectorsMax - total)
        else
          .take ⟨loc.deadline, loc.partition, live ∩ sectors⟩ (loc, sectors) sectors.card

/-- The selection loop of `processBatch` (lines 123-193).  Returns the
final `total`, the declaration list, and the `todo` list as left by the
loop (entries hit by the cap were shrunk in place; everything else is
unchanged).  `none` models the Go panic on `ps[loc.Partition]`. -/
def selectLoop (cfg : Cfg) (dlIdx : Nat) (parts : Nat → Option (List BitField)) :
    List (SectorLocation × BitField) → Nat → List TerminationDeclaration →
    Option (Nat × List TerminationDeclaration × List (SectorLocation × BitField))
  | [], total, decls => some (total, decls, [])
  | e :: rest, total, decls =>
    match entryStep cfg dlIdx parts e.1 e.2 total with
    | .panic => none
    | .skip =>
      (selectLoop cfg dlIdx parts rest total decls).map (fun r => (r.1, r.2.1, e :: r.2.2))
    | .take d e' nC =>
      if total + nC ≥ cfg.addressedSectorsMax ∨ total + nC ≥ cfg.terminateBatchMax ∨
          (decls ++ [d]).length ≥ cfg.declarationsMax then
        some (total + nC, decls ++ [d], e' :: rest)
      else
        (selectLoop cfg dlIdx parts rest (total + nC) (decls ++ [d])).map
          (fun r => (r.1, r.2.1, e' :: r.2.2))

/-- `b.waiting[sn]` (a missing key reads as the empty list, as for a Go
map). -/
def wLookup (w : List (Nat × List Nat)) (sn : Nat) : List Nat :=
  match w.find? (fun e => e.1 == sn) with
  | some e => e.2
  | none => []

/-- `delete(b.waiting, sn)`. -/
def wDelete (w : List (Nat × List Nat)) (sn : Nat) : List (Nat × List Nat) :=
  w.filter (fun e => e.1 ≠ sn)

/-- The `ForEach` body at lines 234-241: for each included sector number
in ascending order, send `mcid` to every channel in `waiting[sn]` and
delete the entry.  Deliveries are recorded as (channel id, mcid). -/
def drainSectors (mcid : String) :
    List Nat → List (Nat × List Nat) → List (Nat × String) →
    List (Nat × List Nat) × List (Nat × String)
  | [], w, dv => (w, dv)
  | sn :: rest, w, dv =>
    drainSectors mcid rest (wDelete w sn) (dv ++ (wLookup w sn).map (fun c => (c, mcid)))

/-- Lines 228-245, run after a successful submission: for every
declaration, delete its whole `SectorLocation` key from `todo` and
drain the waiters of its included sectors. -/
def postSend (mcid : String) :
    List TerminationDeclaration → List (SectorLocation × BitField) →
    List (Nat × List Nat) → List (Nat × String) →
    List (SectorLocation × BitField) × List (Nat × List Nat) × List (Nat × String)
  | [], td, w, dv => (td, w, dv)
  | t :: ts, td, w, dv =>
    let td1 := td.filter (fun e => e.1 ≠ SectorLocation.mk t.deadline t.partition)
    let p := drainSectors mcid (bfList t.sectors) w dv
    postSend mcid ts td1 p.1 p.2

/-- The `(string, error)` pair returned by `processBatch`. -/
inductive PBRes where
  | ok (mcid : String) : PBRes
  | err (msg : String) : PBRes
deriving DecidableEq

/-- Observable outcome of one `processBatch` call: the return value,
the state left behind, the params handed to `MessagerSendMsg` (when the
call was made at all, whether or not it succeeded), and the message ids
delivered to waiter channels. -/
structure PBOut where
  res : PBRes
  todo : List (SectorLocation × BitField)
  waiting : List (Nat × List Nat)
  sent : Option (List TerminationDeclaration)
  delivered : List (Nat × String)
deriving DecidableEq

/-- `processBatch(notif, after)` (lines 113-248). `none` is the Go
panic on an out-of-range partition index. -/
def processBatch (cfg : Cfg) (ch : Chain) (notif «after» : Bool) (st : BState) :
    Option PBOut :=
  match ch.provingDeadlineIndex with
  | none => some ⟨.err "getting proving deadline info failed", st.todo, st.waiting, none, []⟩
  | some dlIdx =>
    match selectLoop cfg dlIdx ch.partitions st.todo 0 [] with
    | none => none
    | some (total, decls, todo1) =>
      if decls = [] then some ⟨.ok "", todo1, st.waiting, none, []⟩
      else if notif = true ∧ total < cfg.terminateBatchMax then
        some ⟨.ok "", todo1, st.waiting, none, []⟩
      else if «after» = true ∧ total < cfg.terminateBatchMin then
        some ⟨.ok "", todo1, st.waiting, none, []⟩
      else if ch.cborOk = false then
        some ⟨.err "could not serialize TerminateSectors params", todo1, st.waiting, none, []⟩
      else if ch.minerInfoOk = false then
        some ⟨.err "could not get miner info", todo1, st.waiting, none, []⟩
      else if ch.addrSelOk = false then
        some ⟨.err "no good address found", todo1, st.waiting, none, []⟩
      else
        match ch.sendResult with
        | none => some ⟨.err "sending message failed", todo1, st.waiting, some decls, []⟩
        | some mcid =>
          let r := postSend mcid decls todo1 st.waiting []
          some ⟨.ok mcid, r.1, r.2.1, some decls, r.2.2⟩

/-- The oracles `AddTermination` consults: `StateSectorPartition`
(outer `none` = RPC error, inner `none` = Go `nil` location) and
`StateMinerPartitions`. -/
structure AddChain where
  sectorPartition : Option (Option SectorLocation)
  partitions : Nat → Option (List BitField)

/-- What `AddTermination` does before suspending: either it returns the
triple `(mcid, terminated, err)` immediately, or it has registered the
sector and its fresh waiter channel and now blocks on that channel. -/
inductive AddResult where
  | ret (mcid : String) (terminated : Bool) (err : Option String) : AddResult
  | registered (chanId : Nat) : AddResult
deriving DecidableEq

/-- `bf, ok := b.todo[*loc]; if !ok { n := bitfield.New(); bf = &n;
b.todo[*loc] = bf }; bf.Set(uint64(s.Number))` (lines 283-289). -/
def todoInsert (todo : List (SectorLocation × BitField)) (loc : SectorLocation) (sn : Nat) :
    List (SectorLocation × BitField) :=
  match todo with
  | [] => [(loc, {sn})]
  | e :: rest =>
    if e.1 = loc then (e.1, insert sn e.2) :: rest else e :: todoInsert rest loc sn

/-- `b.waiting[s.Number] = append(b.waiting[s.Number], sent)`
(line 292). -/
def wAppend (w : List (Nat × List Nat)) (sn c : Nat) : List (Nat × List Nat) :=
  match w with
  | [] => [(sn, [c])]
  | e :: rest =>
    if e.1 = sn then (e.1, e.2 ++ [c]) :: rest else e :: wAppend rest sn c

/-- `AddTermination` up to its suspension point (lines 252-298): the
location lookup, the live-set pre-check, and on a live sector the
registration of the bit and of a fresh waiter channel `c`.  `none` is
the Go panic on `parts[loc.Partition]`. -/
def addTermination (ch : AddChain) (sn : Nat) (c : Nat) (st : BState) :
    Option (AddResult × BState) :=
  match ch.sectorPartition with
  | none => some (.ret "" false (some "getting sector location"), st)
  | some none => some (.ret "" false (some "sector location not found"), st)
  | some (some loc) =>
    match ch.partitions loc.deadline with
    | none => some (.ret "" false (some "getting partitions"), st)
    | some parts =>
      match parts.get? loc.partition with
      | none => none
      | some live =>
        if sn ∈ live then
          some (.registered c, ⟨todoInsert st.todo loc sn, wAppend st.waiting sn c⟩)
        else
          some (.ret "" true none, st)

/-- `Pending` before sorting (lines 332-344): one `(minerId, sector)`
pair per set bit of every `todo` bitfield, in `todo` iteration order,
each bitfield visited in ascending order by `ForEach`. -/
def pendingRaw (mid : Nat) (todo : List (SectorLocation × BitField)) : List (Nat × Nat) :=
  todo.flatMap (fun e => (bfList e.2).map (fun n => (mid, n)))

/-- The comparator handed to `sort.Slice` in `Pending` (lines 346-352),
as a reflexive total order. -/
def pendLe (a b : Nat × Nat) : Prop :=
  a.1 < b.1 ∨ (a.1 = b.1 ∧ a.2 ≤ b.2)

instance : DecidableRel pendLe := fun a b => by
  unfold pendLe; infer_instance

instance : IsTotal (Nat × Nat) pendLe := by
  constructor; intro a b; unfold pendLe; omega

instance : IsTrans (Nat × Nat) pendLe := by
  constructor; intro a b c; unfold pendLe; omega

/-- `Pending(ctx)` (lines 323-355): enumerate every set bit of every
`todo` bitfield as a `(minerId, sectorNumber)` pair and sort by miner
id, then sector number.  `mid` is the batcher's miner actor id. -/
def Pending (mid : Nat) (todo : List (SectorLocation × BitField)) : List (Nat × Nat) :=
  List.insertionSort pendLe (pendingRaw mid todo)

/-- One externally visible event of the batcher's lifetime: a call to
`AddTermination` (the fresh waiter channel id is drawn from a counter)
or one background-loop `processBatch` invocation. -/
inductive Ev where
  | add (ch : AddChain) (sn : Nat) : Ev
  | batch (cfg : Cfg) (ch : Chain) (notif «after» : Bool) : Ev

/-- The batcher lifetime state: shared state, the next fresh channel
id, and the log of every (channel id, message id) delivery made. -/
structure TraceState where
  st : BState
  nextChan : Nat
  log : List (Nat × String)

/-- One lifetime step.  A panic leaves the state unchanged (the process
dies; no delivery happens). -/
def stepEv (t : TraceState) : Ev → TraceState
  | .add ch sn =>
    match addTermination ch sn t.nextChan t.st with
    | none => t
    | some (.registered _, st') => ⟨st', t.nextChan + 1, t.log⟩
    | some (.ret _ _ _, st') => ⟨st', t.nextChan, t.log⟩
  | .batch cfg ch notif «after» =>
    match processBatch cfg ch notif «after» t.st with
    | none => t
    | some out => ⟨⟨out.todo, out.waiting⟩, t.nextChan, t.log ++ out.delivered⟩

/-- A batcher lifetime: a fresh batcher (`NewTerminationBatcher` state:
empty `todo`, empty `waiting`) driven through a list of events. -/
def runEvents (evs : List Ev) : TraceState :=
  evs.foldl stepEv ⟨⟨[], []⟩, 0, []⟩

/-- All channel ids present anywhere in the waiter map. -/
def waitIds (w : List (Nat × List Nat)) : List Nat :=
  w.flatMap (fun e => e.2)

/-! ## Bitfield lemmas -/

theorem mem_bfList {bf : BitField} {n : Nat} : n ∈ bfList bf ↔ n ∈ bf := by
  unfold bfList
  simp only [List.mem_filter, List.mem_range, decide_eq_true_eq]
  refine ⟨fun h => h.2, fun h => ⟨?_, h⟩⟩
  have := Finset.le_sup (f := id) h
  simp only [id_eq] at this
  omega

theorem nodup_bfList (bf : BitField) : (bfList bf).Nodup :=
  (List.nodup_range _).filter _

theorem toFinset_bfList (bf : BitField) : (bfList bf).toFinset = bf := by
  ext x
  simp [mem_bfList]

theorem length_bfList (bf : BitField) : (bfList bf).length = bf.card := by
  have h := List.toFinset_card_of_nodup (nodup_bfList bf)
  rw [toFinset_bfList] at h
  exact h.symm

theorem slice0_card {bf : BitField} {n : Nat} {s : BitField} (h : slice0 bf n = some s) :
    s.card = n := by
  unfold slice0 at h
  split at h
  · cases h
    have hnd : ((bfList bf).take n).Nodup := (nodup_bfList bf).sublist (List.take_sublist n _)
    rw [List.toFinset_card_of_nodup hnd, List.length_take, length_bfList]
    omega
  · cases h

/-! ## C9: the two forms of the previous-deadline test -/

theorem prev_mod_iff {P d i : Nat} (hP : 0 < P) (hd : d < P) (hi : i < P) :
    (d + 1) % P = i ↔ d = (i + P - 1) % P := by
  constructor
  · intro h
    rcases Nat.lt_or_ge (d + 1) P with h1 | h1
    · rw [Nat.mod_eq_of_lt h1] at h
      subst h
      have he : d + 1 + P - 1 = d + P := by omega
      rw [he, Nat.add_mod_right, Nat.mod_eq_of_lt hd]
    · have h2 : d + 1 = P := by omega
      rw [h2, Nat.mod_self] at h
      subst h
      have he : 0 + P - 1 = P - 1 := by omega
      rw [he, Nat.mod_eq_of_lt (by omega)]
      omega
  · intro h
    rcases Nat.eq_zero_or_pos i with hi0 | hi1
    · subst hi0
      have he : 0 + P - 1 = P - 1 := by omega
      rw [he, Nat.mod_eq_of_lt (by omega)] at h
      have : d + 1 = P := by omega
      rw [this, Nat.mod_self]
    · have he : i + P - 1 = (i - 1) + P := by omega
      rw [he, Nat.add_mod_right, Nat.mod_eq_of_lt (by omega)] at h
      have : d + 1 = i := by omega
      rw [this, Nat.mod_eq_of_lt hi]

/-- C9: for deadline and proving-deadline indices both in `[0, P)` with
`P > 0`, the source's previous-deadline test `(loc.Deadline+1) % P ==
dl.Index` agrees with the spec's form `loc.Deadline == (dl.Index + P −
1) % P` on every input. -/
theorem claim_C9_prev_deadline_forms_agree (P d i : Nat) (hP : 0 < P) (hd : d < P)
    (hi : i < P) : prevDeadlineTest P i d = prevDeadlineSpec P i d := by
  have h := prev_mod_iff hP hd hi
  unfold prevDeadlineTest prevDeadlineSpec
  by_cases hc : (d + 1) % P = i
  · have e1 : ((d + 1) % P == i) = true := by simp [hc]
    have e2 : (d == (i + P - 1) % P) = true := by simp [h.mp hc]
    rw [e1, e2]
  · have h2 : ¬ d = (i + P - 1) % P := fun he => hc (h.mpr he)
    have e1 : ((d + 1) % P == i) = false := by simp [hc]
    have e2 : (d == (i + P - 1) % P) = false := by simp [h2]
    rw [e1, e2]

theorem claim_C9_witness :
    0 < 48 ∧ 7 < 48 ∧ 8 < 48 ∧ prevDeadlineTest 48 8 7 = prevDeadlineSpec 48 8 7 :=
  ⟨by decide, by decide, by decide,
    claim_C9_prev_deadline_forms_agree 48 7 8 (by decide) (by decide) (by decide)⟩

/-! ## C6: AddTermination on a sector that is not live -/

/-- C6: when the chain view resolves the sector to a location whose
partition list is available and the sector's bit is not set in that
partition's `LiveSectors` bitfield, `AddTermination` returns
`("", true, nil)` immediately and leaves `todo` and `waiting` exactly
as they were (the returned state is the argument state).  Since the
state is unchanged and the embedding is a function of the chain view
and state, a repeated call returns the same result. -/
theorem claim_C6_already_terminated_noop (ch : AddChain) (sn c : Nat) (st : BState)
    (loc : SectorLocation) (parts : List BitField) (live : BitField)
    (h1 : ch.sectorPartition = some (some loc))
    (h2 : ch.partitions loc.deadline = some parts)
    (h3 : parts.get? loc.partition = some live)
    (h4 : sn ∉ live) :
    addTermination ch sn c st = some (.ret "" true none, st) := by
  unfold addTermination
  rw [h1]
  dsimp only
  rw [h2]
  dsimp only
  rw [h3]
  dsimp only
  rw [if_neg h4]

theorem claim_C6_witness :
    (AddChain.mk (some (some ⟨5, 0⟩)) (fun d => if d = 5 then some [{1}] else none)).sectorPartition
        = some (some ⟨5, 0⟩) ∧
    (2 : Nat) ∉ ({1} : BitField) ∧
    addTermination ⟨some (some ⟨5, 0⟩), fun d => if d = 5 then some [{1}] else none⟩ 2 0
        ⟨[(⟨7, 1⟩, {3})], [(3, [0])]⟩ =
      some (.ret "" true none, ⟨[(⟨7, 1⟩, {3})], [(3, [0])]⟩) :=
  ⟨rfl, by decide,
    claim_C6_already_terminated_noop _ 2 0 _ ⟨5, 0⟩ [{1}] {1} rfl (by decide) rfl (by decide)⟩

/-! ## C8: Pending -/

/-- C8: `Pending` returns a list sorted ascending first by miner id,
then by sector number; that list is a permutation of the per-bit
enumeration of `todo` (one `(mid, n)` entry per set bit of each
bitfield, `mid` being the batcher's bound miner actor id); and a pair
is a member exactly when its miner id is `mid` and its sector number is
a set bit of some `todo` bitfield.  The embedding consumes the `todo`
list purely, matching the source, which only reads batcher state under
the lock. -/
theorem claim_C8_pending_sorted_exact (mid : Nat) (todo : List (SectorLocation × BitField)) :
    List.Sorted pendLe (Pending mid todo) ∧
    Pending mid todo ~ pendingRaw mid todo ∧
    ∀ m n : Nat, (m, n) ∈ Pending mid todo ↔ (m = mid ∧ ∃ e ∈ todo, n ∈ e.2) := by
  refine ⟨List.sorted_insertionSort _ _, List.perm_insertionSort _ _, ?_⟩
  intro m n
  unfold Pending
  rw [(List.perm_insertionSort pendLe (pendingRaw mid todo)).mem_iff]
  unfold pendingRaw
  simp only [List.mem_flatMap, List.mem_map, mem_bfList, Prod.mk.injEq]
  constructor
  · rintro ⟨e, he, k, hk, hmid, hkn⟩
    exact ⟨hmid.symm, e, he, hkn ▸ hk⟩
  · rintro ⟨hm, e, he, hn⟩
    exact ⟨e, he, n, hn, hm.symm, rfl⟩

/-! ## C1 and C2: the cap branch mutates `todo` before submission, and
the post-submission cleanup deletes whole entries -/

/-- C1 failing input: one location `⟨deadline 5, partition 0⟩` with 15
pending live sectors `{0..14}` under `AddressedSectorsMax = 10` (the S4
scenario scaled from 150/100 to 15/10), with waiters for the included
sector 2 (channel 4) and the remainder sector 12 (channel 9). -/
def c1cfg : Cfg := ⟨48, 10, 10, 10, 1⟩

def c1chain : Chain :=
  ⟨some 0, fun d => if d = 5 then some [Finset.range 15] else none, true, true, true, some "m1"⟩

def c1state : BState := ⟨[(⟨5, 0⟩, Finset.range 15)], [(2, [4]), (12, [9])]⟩

/-- C1: evaluating `processBatch` at the failing input.  The first
(force-triggered) batch takes exactly the first 10 bits `{0..9}` as the
claim says, but after the successful submission the whole
`SectorLocation` entry is deleted from `todo` (line 229), so the
remainder `{10..14}` is NOT still present in `todo`: `todo` is `[]`,
and a second batch run on the resulting state submits nothing, leaving
the waiter of sector 12 (channel 9) permanently stranded.  This
contradicts the claim (and spec scenario S4), whose second submission
must carry the remaining bits. -/
theorem claim_C1_remainder_dropped :
    processBatch c1cfg c1chain false false c1state =
      some ⟨.ok "m1", [], [(12, [9])], some [⟨5, 0, (List.range 10).toFinset⟩], [(4, "m1")]⟩ ∧
    processBatch c1cfg c1chain false false ⟨[], [(12, [9])]⟩ =
      some ⟨.ok "", [], [(12, [9])], none, []⟩ := by
  constructor
  · decide
  · decide

/-- C2 failing input: same shape — location `⟨5, 0⟩` with 15 pending
live sectors `{0..14}`, `AddressedSectorsMax = 10`, a waiter (channel
7) on sector 3 — but `MessagerSendMsg` fails. -/
def c2cfg : Cfg := ⟨48, 10, 10, 10, 1⟩

def c2chain : Chain :=
  ⟨some 0, fun d => if d = 5 then some [Finset.range 15] else none, true, true, true, none⟩

def c2state : BState := ⟨[(⟨5, 0⟩, Finset.range 15)], [(3, [7])]⟩

/-- C2: evaluating `processBatch` at the failing input.  The send
failure does return an error, notifies no waiter and leaves `waiting`
intact — but `todo` is NOT exactly as it was before the lock was
taken: the cap branch already subtracted the 10 chosen bits in place
(line 175), so the entry now holds only `{10..14}` and the sliced bits
`{0..9}` are dropped from the pending state even though the message was
never sent. -/
theorem claim_C2_failed_send_state_mutated :
    processBatch c2cfg c2chain false false c2state =
      some ⟨.err "sending message failed",
        [(⟨5, 0⟩, Finset.range 15 \ (List.range 10).toFinset)],
        [(3, [7])], some [⟨5, 0, (List.range 10).toFinset⟩], []⟩ ∧
    [(SectorLocation.mk 5 0, Finset.range 15 \ (List.range 10).toFinset)] ≠ c2state.todo := by
  constructor
  · decide
  · decide

/-! ## C3 counterexample: a notify-triggered batch can exceed
`TerminateBatchMax` -/

/-- C3 counterexample input: `TerminateBatchMax = 10` but
`AddressedSectorsMax = 1000`; one location with 15 pending live
sectors; trigger is `notify` (`notif = true`). -/
def c3cfg : Cfg := ⟨48, 1000, 100, 10, 1⟩

def c3chain : Chain :=
  ⟨some 0, fun d => if d = 5 then some [Finset.range 15] else none, true, true, true, some "m3"⟩

def c3state : BState := ⟨[(⟨5, 0⟩, Finset.range 15)], []⟩

/-- C3 counterexample: a batch triggered by `notify` (not force-flushed)
passes params to `MessagerSendMsg` whose total bit count is 15, which
exceeds `TerminateBatchMax = 10`.  The selection loop only breaks
*after* the entry that crosses `TerminateBatchMax` has been appended
whole, and the notify gate (line 199) lets any total `≥
TerminateBatchMax` through, so the third conjunct of the claim is false
on the code. -/
theorem claim_C3_counterexample :
    processBatch c3cfg c3chain true false c3state =
      some ⟨.ok "m3", [], [], some [⟨5, 0, Finset.range 15⟩], []⟩ ∧
    sumBits [⟨5, 0, Finset.range 15⟩] = 15 ∧
    c3cfg.terminateBatchMax = 10 := by
  refine ⟨by decide, by decide, rfl⟩

/-! ## Selection-loop invariants -/

theorem sumBits_snoc (l : List TerminationDeclaration) (d : TerminationDeclaration) :
    sumBits (l ++ [d]) = sumBits l + d.sectors.card := by
  simp [sumBits]

theorem dropLast_snoc {α : Type} (l : List α) (a : α) : (l ++ [a]).dropLast = l := by
  simp

theorem sumBits_dropLast_le (l : List TerminationDeclaration) :
    sumBits l.dropLast ≤ sumBits l := by
  induction l with
  | nil => simp [sumBits]
  | cons a t ih =>
    cases t with
    | nil => simp [sumBits]
    | cons b t2 =>
      simp only [List.dropLast_cons₂, sumBits, List.map_cons, List.sum_cons] at ih ⊢
      omega

/-- Every fact about a `.take` outcome of the loop body that the cap
invariants need: the declaration's bit count is bounded by the amount
added to `total`, the new total respects `AddressedSectorsMax` when the
old one did, and the declaration's deadline passed the deadline
filter. -/
theorem entryStep_take_facts {cfg : Cfg} {dlIdx : Nat} {parts : Nat → Option (List BitField)}
    {loc : SectorLocation} {sectors : BitField} {total : Nat}
    {d : TerminationDeclaration} {e' : SectorLocation × BitField} {nC : Nat}
    (h : entryStep cfg dlIdx parts loc sectors total = .take d e' nC) :
    d.sectors.card ≤ nC ∧
    (total ≤ cfg.addressedSectorsMax → total + nC ≤ cfg.addressedSectorsMax) ∧
    deadlineSkip cfg.wpostPeriodDeadlines dlIdx d.deadline = false := by
  unfold entryStep at h
  split at h
  · exact absurd h (by simp)
  next hskip =>
    split at h
    · exact absurd h (by simp)
    next hn =>
      split at h
      · exact absurd h (by simp)
      next ps hps =>
        split at h
        · exact absurd h (by simp)
        next live hlive =>
          split at h
          next hcap =>
            split at h
            · exact absurd h (by simp)
            next sliced hsl =>
              cases h
              refine ⟨le_of_eq (slice0_card hsl), fun hle => by omega, ?_⟩
              simpa using hskip
          next hcap =>
            cases h
            refine ⟨Finset.card_le_card Finset.inter_subset_right, fun hle => by omega, ?_⟩
            simpa using hskip

/-- The combined selection-loop invariant: starting from a running
total that dominates the bits already collected, the loop keeps the
collected bits below `AddressedSectorsMax`, the declaration count below
`DeclarationsMax`, everything but the last declaration strictly below
`TerminateBatchMax`, and every collected declaration past the deadline
filter. -/
theorem selectLoop_invariant (cfg : Cfg) (dlIdx : Nat) (parts : Nat → Option (List BitField))
    (entries : List (SectorLocation × BitField)) :
    ∀ total decls t' ds td,
      selectLoop cfg dlIdx parts entries total decls = some (t', ds, td) →
      sumBits decls ≤ total →
      sumBits ds ≤ t' ∧
      (total ≤ cfg.addressedSectorsMax → t' ≤ cfg.addressedSectorsMax) ∧
      (decls.length < cfg.declarationsMax → ds.length ≤ cfg.declarationsMax) ∧
      (total < cfg.terminateBatchMax → sumBits ds.dropLast < cfg.terminateBatchMax) ∧
      ((∀ x ∈ decls, deadlineSkip cfg.wpostPeriodDeadlines dlIdx x.deadline = false) →
        ∀ x ∈ ds, deadlineSkip cfg.wpostPeriodDeadlines dlIdx x.deadline = false) := by
  induction entries with
  | nil =>
    intro total decls t' ds td h hsb
    simp only [selectLoop, Option.some.injEq, Prod.mk.injEq] at h
    obtain ⟨rfl, rfl, rfl⟩ := h
    refine ⟨hsb, fun h2 => h2, fun h3 => le_of_lt h3, fun h4 => ?_, fun h5 => h5⟩
    exact lt_of_le_of_lt (le_trans (sumBits_dropLast_le decls) hsb) h4
  | cons e rest ih =>
    intro total decls t' ds td h hsb
    simp only [selectLoop] at h
    cases hstep : entryStep cfg dlIdx parts e.1 e.2 total with
    | panic => rw [hstep] at h; cases h
    | skip =>
      rw [hstep] at h
      cases hrec : selectLoop cfg dlIdx parts rest total decls with
      | none => rw [hrec] at h; cases h
      | some r =>
        obtain ⟨a, b, c⟩ := r
        rw [hrec] at h
        simp only [Option.map_some', Option.some.injEq, Prod.mk.injEq] at h
        obtain ⟨rfl, rfl, rfl⟩ := h
        exact ih total decls a b c hrec hsb
    | take d e' nC =>
      rw [hstep] at h
      dsimp only at h
      obtain ⟨hc1, hc2, hc3⟩ := entryStep_take_facts hstep
      split at h
      next hbrk =>
        simp only [Option.some.injEq, Prod.mk.injEq] at h
        obtain ⟨rfl, rfl, rfl⟩ := h
        refine ⟨?_, fun h2 => ?_, fun h3 => ?_, fun h4 => ?_, fun h5 => ?_⟩
        · rw [sumBits_snoc]; omega
        · exact hc2 h2
        · simp only [List.length_append, List.length_singleton]; omega
        · rw [dropLast_snoc]; omega
        · intro x hx
          rcases List.mem_append.mp hx with hx1 | hx2
          · exact h5 x hx1
          · rcases List.mem_singleton.mp hx2 with rfl
            exact hc3
      next hbrk =>
        push_neg at hbrk
        obtain ⟨hb1, hb2, hb3⟩ := hbrk
        cases hrec : selectLoop cfg dlIdx parts rest (total + nC) (decls ++ [d]) with
        | none => rw [hrec] at h; cases h
        | some r =>
          obtain ⟨a, b, c⟩ := r
          rw [hrec] at h
          simp only [Option.map_some', Option.some.injEq, Prod.mk.injEq] at h
          obtain ⟨rfl, rfl, rfl⟩ := h
          have hsb' : sumBits (decls ++ [d]) ≤ total + nC := by rw [sumBits_snoc]; omega
          obtain ⟨g1, g2, g3, g4, g5⟩ := ih (total + nC) (decls ++ [d]) a b c hrec hsb'
          refine ⟨g1, fun h2 => g2 (le_of_lt hb1), fun h3 => g3 hb3, fun h4 => g4 hb2, ?_⟩
          intro h5
          refine g5 ?_
          intro x hx
          rcases List.mem_append.mp hx with hx1 | hx2
          · exact h5 x hx1
          · rcases List.mem_singleton.mp hx2 with rfl
            exact hc3

/-- Inversion: whenever `processBatch` handed params to
`MessagerSendMsg`, those params are the declaration list produced by
the selection loop started on the batch state's `todo` with zero total
and no declarations. -/
theorem processBatch_sent {cfg : Cfg} {ch : Chain} {notif aft : Bool} {st : BState}
    {out : PBOut} {ds : List TerminationDeclaration}
    (h : processBatch cfg ch notif aft st = some out) (hs : out.sent = some ds) :
    ∃ dlIdx total todo1, ch.provingDeadlineIndex = some dlIdx ∧
      selectLoop cfg dlIdx ch.partitions st.todo 0 [] = some (total, ds, todo1) := by
  unfold processBatch at h
  cases hdl : ch.provingDeadlineIndex with
  | none =>
    rw [hdl] at h
    dsimp only at h
    cases h
    simp at hs
  | some dlIdx =>
    rw [hdl] at h
    dsimp only at h
    cases hsel : selectLoop cfg dlIdx ch.partitions st.todo 0 [] with
    | none => rw [hsel] at h; cases h
    | some r =>
      obtain ⟨total, decls, todo1⟩ := r
      rw [hsel] at h
      dsimp only at h
      split at h
      · cases h; simp at hs
      split at h
      · cases h; simp at hs
      split at h
      · cases h; simp at hs
      split at h
      · cases h; simp at hs
      split at h
      · cases h; simp at hs
      split at h
      · cases h; simp at hs
      cases hsend : ch.sendResult with
      | none =>
        rw [hsend] at h
        cases h
        simp only [Option.some.injEq] at hs
        exact ⟨dlIdx, total, todo1, rfl, hs ▸ hsel⟩
      | some mcid =>
        rw [hsend] at h
        cases h
        simp only [Option.some.injEq] at hs
        exact ⟨dlIdx, total, todo1, rfl, hs ▸ hsel⟩

/-- C3 (amended): for every params value handed to `MessagerSendMsg`
(provided `DeclarationsMax ≥ 1` and `TerminateBatchMax ≥ 1`): the
total bit count is at most `AddressedSectorsMax` and the declaration
count at most `DeclarationsMax`; and — whether or not the batch was
force-flushed — the total bit count of all declarations *except the
last* is strictly below `TerminateBatchMax`.  (The unamended bound
`sumBits ds ≤ TerminateBatchMax` is refuted by
`claim_C3_counterexample`: the loop breaks only after the crossing
declaration has been appended whole, so the last declaration may push
the total past `TerminateBatchMax`, and the notify gate admits any
total at or above it.) -/
theorem claim_C3_caps (cfg : Cfg) (ch : Chain) (notif aft : Bool) (st : BState)
    (out : PBOut) (ds : List TerminationDeclaration)
    (h : processBatch cfg ch notif aft st = some out) (hs : out.sent = some ds)
    (hD : 1 ≤ cfg.declarationsMax) (hT : 0 < cfg.terminateBatchMax) :
    sumBits ds ≤ cfg.addressedSectorsMax ∧ ds.length ≤ cfg.declarationsMax ∧
    sumBits ds.dropLast < cfg.terminateBatchMax := by
  obtain ⟨dlIdx, total, todo1, hdl, hsel⟩ := processBatch_sent h hs
  obtain ⟨g1, g2, g3, g4, g5⟩ :=
    selectLoop_invariant cfg dlIdx ch.partitions st.todo 0 [] total ds todo1 hsel
      (by simp [sumBits])
  exact ⟨le_trans g1 (g2 (Nat.zero_le _)), g3 (by simpa using hD), g4 hT⟩

theorem claim_C3_caps_witness :
    sumBits [⟨5, 0, Finset.range 15⟩] ≤ c3cfg.addressedSectorsMax ∧
    [(⟨5, 0, Finset.range 15⟩ : TerminationDeclaration)].length ≤ c3cfg.declarationsMax ∧
    sumBits ([⟨5, 0, Finset.range 15⟩] : List TerminationDeclaration).dropLast <
      c3cfg.terminateBatchMax :=
  claim_C3_caps c3cfg c3chain true false c3state
    ⟨.ok "m3", [], [], some [⟨5, 0, Finset.range 15⟩], []⟩
    [⟨5, 0, Finset.range 15⟩] (by decide) rfl (by decide) (by decide)

/-- C4: no declaration handed to the message submitter carries a
deadline equal to the proving deadline `dlIdx` read by the same
`processBatch` invocation, its successor `(dlIdx+1) mod P`, or its
predecessor `(dlIdx+P−1) mod P`, for `P = WPoStPeriodDeadlines > 0`
and `dlIdx < P` (as `dline.Info` guarantees). -/
theorem claim_C4_deadline_exclusion (cfg : Cfg) (ch : Chain) (notif aft : Bool)
    (st : BState) (out : PBOut) (ds : List TerminationDeclaration) (dlIdx : Nat)
    (h : processBatch cfg ch notif aft st = some out)
    (hdl : ch.provingDeadlineIndex = some dlIdx)
    (hs : out.sent = some ds)
    (hP : 0 < cfg.wpostPeriodDeadlines)
    (hi : dlIdx < cfg.wpostPeriodDeadlines) :
    ∀ d ∈ ds, d.deadline ≠ dlIdx ∧
      d.deadline ≠ (dlIdx + 1) % cfg.wpostPeriodDeadlines ∧
      d.deadline ≠ (dlIdx + cfg.wpostPeriodDeadlines - 1) % cfg.wpostPeriodDeadlines := by
  obtain ⟨dlIdx', total, todo1, hdl', hsel⟩ := processBatch_sent h hs
  rw [hdl] at hdl'
  obtain rfl : dlIdx = dlIdx' := by injection hdl'
  have hfilter :=
    (selectLoop_invariant cfg dlIdx ch.partitions st.todo 0 [] total ds todo1 hsel
      (by simp [sumBits])).2.2.2.2 (by simp)
  intro d hd
  have hskip := hfilter d hd
  unfold deadlineSkip prevDeadlineTest at hskip
  simp only [Bool.or_eq_false_iff, beq_eq_false_iff_ne, ne_eq] at hskip
  obtain ⟨⟨h1, h2⟩, h3⟩ := hskip
  refine ⟨h2, h1, fun he => ?_⟩
  have hdP : d.deadline < cfg.wpostPeriodDeadlines := he ▸ Nat.mod_lt _ hP
  exact h3 ((prev_mod_iff hP hdP hi).mpr he)

theorem claim_C4_witness :
    (TerminationDeclaration.mk 5 0 ((List.range 10).toFinset)).deadline ≠ 0 ∧
    (TerminationDeclaration.mk 5 0 ((List.range 10).toFinset)).deadline ≠ (0 + 1) % 48 ∧
    (TerminationDeclaration.mk 5 0 ((List.range 10).toFinset)).deadline ≠ (0 + 48 - 1) % 48 :=
  claim_C4_deadline_exclusion ⟨48, 10, 10, 10, 1⟩
    ⟨some 0, fun d => if d = 5 then some [Finset.range 15] else none, true, true, true, some "m4"⟩
    false false ⟨[(⟨5, 0⟩, Finset.range 15)], []⟩
    ⟨.ok "m4", [], [], some [⟨5, 0, (List.range 10).toFinset⟩], []⟩
    [⟨5, 0, (List.range 10).toFinset⟩] 0 (by decide) rfl rfl (by decide) (by decide)
    ⟨5, 0, (List.range 10).toFinset⟩ (List.mem_singleton.mpr rfl)

/-! ## C5: gating of submissions -/

/-- C5: the gating at lines 195-205.  (a) An empty selection returns
`("", nil)` without handing anything to the submitter.  (b) A
notify-triggered batch (`notif = true`) with accumulated total below
`TerminateBatchMax` aborts without submitting.  (c) A tick-triggered
batch (`notif = false`, `after = true`) with total below
`TerminateBatchMin` aborts without submitting.  (d) A force-triggered
batch (both flags false) hands any non-empty selection to
`MessagerSendMsg` whenever serialization, the miner-info query and
address selection succeed — whatever the totals. -/
theorem claim_C5_gating :
    (∀ (cfg : Cfg) (ch : Chain) (notif aft : Bool) (st : BState) (dlIdx total : Nat)
        (td : List (SectorLocation × BitField)),
      ch.provingDeadlineIndex = some dlIdx →
      selectLoop cfg dlIdx ch.partitions st.todo 0 [] = some (total, [], td) →
      processBatch cfg ch notif aft st = some ⟨.ok "", td, st.waiting, none, []⟩) ∧
    (∀ (cfg : Cfg) (ch : Chain) (aft : Bool) (st : BState) (dlIdx total : Nat)
        (ds : List TerminationDeclaration) (td : List (SectorLocation × BitField)),
      ch.provingDeadlineIndex = some dlIdx →
      selectLoop cfg dlIdx ch.partitions st.todo 0 [] = some (total, ds, td) →
      total < cfg.terminateBatchMax →
      processBatch cfg ch true aft st = some ⟨.ok "", td, st.waiting, none, []⟩) ∧
    (∀ (cfg : Cfg) (ch : Chain) (st : BState) (dlIdx total : Nat)
        (ds : List TerminationDeclaration) (td : List (SectorLocation × BitField)),
      ch.provingDeadlineIndex = some dlIdx →
      selectLoop cfg dlIdx ch.partitions st.todo 0 [] = some (total, ds, td) →
      total < cfg.terminateBatchMin →
      processBatch cfg ch false true st = some ⟨.ok "", td, st.waiting, none, []⟩) ∧
    (∀ (cfg : Cfg) (ch : Chain) (st : BState) (dlIdx total : Nat)
        (ds : List TerminationDeclaration) (td : List (SectorLocation × BitField)),
      ch.provingDeadlineIndex = some dlIdx →
      selectLoop cfg dlIdx ch.partitions st.todo 0 [] = some (total, ds, td) →
      ds ≠ [] → ch.cborOk = true → ch.minerInfoOk = true → ch.addrSelOk = true →
      ∃ out, processBatch cfg ch false false st = some out ∧ out.sent = some ds) := by
  refine ⟨?_, ?_, ?_, ?_⟩
  · intro cfg ch notif aft st dlIdx total td hdl hsel
    unfold processBatch
    rw [hdl]
    dsimp only
    rw [hsel]
    dsimp only
    rw [if_pos rfl]
  · intro cfg ch aft st dlIdx total ds td hdl hsel hlt
    unfold processBatch
    rw [hdl]
    dsimp only
    rw [hsel]
    dsimp only
    by_cases hds : ds = []
    · rw [if_pos hds]
    · rw [if_neg hds, if_pos ⟨rfl, hlt⟩]
  · intro cfg ch st dlIdx total ds td hdl hsel hlt
    unfold processBatch
    rw [hdl]
    dsimp only
    rw [hsel]
    dsimp only
    by_cases hds : ds = []
    · rw [if_pos hds]
    · rw [if_neg hds, if_neg (by simp), if_pos ⟨rfl, hlt⟩]
  · intro cfg ch st dlIdx total ds td hdl hsel hds hcbor hmi haddr
    unfold processBatch
    rw [hdl]
    dsimp only
    rw [hsel]
    dsimp only
    rw [if_neg hds, if_neg (by simp), if_neg (by simp), if_neg (by simp [hcbor]),
      if_neg (by simp [hmi]), if_neg (by simp [haddr])]
    cases hsend : ch.sendResult with
    | none => exact ⟨_, rfl, rfl⟩
    | some mcid => exact ⟨_, rfl, rfl⟩

theorem claim_C5_witness :
    (processBatch ⟨48, 10, 10, 10, 1⟩ ⟨some 0, fun _ => none, true, true, true, some "w5"⟩
        true false ⟨[], [(9, [2])]⟩ = some ⟨.ok "", [], [(9, [2])], none, []⟩) ∧
    (processBatch ⟨48, 10, 10, 10, 1⟩
        ⟨some 0, fun d => if d = 5 then some [Finset.range 5] else none, true, true, true,
          some "w5"⟩
        true false ⟨[(⟨5, 0⟩, Finset.range 5)], []⟩ =
      some ⟨.ok "", [(⟨5, 0⟩, Finset.range 5)], [], none, []⟩) ∧
    (processBatch ⟨48, 10, 10, 10, 3⟩
        ⟨some 0, fun d => if d = 5 then some [Finset.range 1] else none, true, true, true,
          some "w5"⟩
        false true ⟨[(⟨5, 0⟩, Finset.range 1)], []⟩ =
      some ⟨.ok "", [(⟨5, 0⟩, Finset.range 1)], [], none, []⟩) ∧
    (∃ out, processBatch ⟨48, 10, 10, 10, 1⟩
        ⟨some 0, fun d => if d = 5 then some [Finset.range 5] else none, true, true, true,
          some "w5"⟩
        false false ⟨[(⟨5, 0⟩, Finset.range 5)], []⟩ = some out ∧
      out.sent = some [⟨5, 0, Finset.range 5⟩]) :=
  ⟨claim_C5_gating.1 _ _ true false _ 0 0 [] rfl (by decide),
   claim_C5_gating.2.1 _ _ false _ 0 5 [⟨5, 0, Finset.range 5⟩] [(⟨5, 0⟩, Finset.range 5)]
     rfl (by decide) (by decide),
   claim_C5_gating.2.2.1 _ _ _ 0 1 [⟨5, 0, Finset.range 1⟩] [(⟨5, 0⟩, Finset.range 1)]
     rfl (by decide) (by decide),
   claim_C5_gating.2.2.2 _ _ _ 0 5 [⟨5, 0, Finset.range 5⟩] [(⟨5, 0⟩, Finset.range 5)]
     rfl (by decide) (by decide) rfl rfl rfl⟩

/-! ## C10: unchecked partition indexing -/

/-- A `.panic` outcome of the loop body comes exactly from
`ps[loc.Partition]` with the index out of range. -/
theorem entryStep_panic {cfg : Cfg} {dlIdx : Nat} {parts : Nat → Option (List BitField)}
    {loc : SectorLocation} {sectors : BitField} {total : Nat}
    (h : entryStep cfg dlIdx parts loc sectors total = .panic) :
    ∃ ps, parts loc.deadline = some ps ∧ ps.length ≤ loc.partition := by
  unfold entryStep at h
  split at h
  · exact absurd h (by simp)
  split at h
  · exact absurd h (by simp)
  split at h
  · exact absurd h (by simp)
  next ps hps =>
    split at h
    next hget => exact ⟨ps, hps, List.get?_eq_none.mp hget⟩
    next live hget =>
      split at h
      · split at h
        · exact absurd h (by simp)
        · exact absurd h (by simp)
      · exact absurd h (by simp)

/-- Under the partition-bound precondition the selection loop never
panics. -/
theorem selectLoop_ne_none (cfg : Cfg) (dlIdx : Nat) (parts : Nat → Option (List BitField)) :
    ∀ (entries : List (SectorLocation × BitField)) (total : Nat)
      (decls : List TerminationDeclaration),
      (∀ e ∈ entries, ∀ ps, parts e.1.deadline = some ps → e.1.partition < ps.length) →
      selectLoop cfg dlIdx parts entries total decls ≠ none := by
  intro entries
  induction entries with
  | nil => intro total decls hb; simp [selectLoop]
  | cons e rest ih =>
    intro total decls hb
    simp only [selectLoop]
    cases hstep : entryStep cfg dlIdx parts e.1 e.2 total with
    | panic =>
      obtain ⟨ps, hps, hlen⟩ := entryStep_panic hstep
      have := hb e (List.mem_cons_self e rest) ps hps
      omega
    | skip =>
      simp only [ne_eq, Option.map_eq_none']
      exact ih total decls (fun x hx => hb x (List.mem_cons_of_mem e hx))
    | take d e' nC =>
      dsimp only
      split
      · simp
      · simp only [ne_eq, Option.map_eq_none']
        exact ih (total + nC) (decls ++ [d]) (fun x hx => hb x (List.mem_cons_of_mem e hx))

/-- C10: `processBatch` indexes `ps[loc.Partition]` and
`AddTermination` indexes `parts[loc.Partition]` with no bounds check;
whenever every relevant `SectorLocation` has a partition index within
the partition list `StateMinerPartitions` returns for its deadline, the
panic (`none`) branch of the embedding is unreachable. -/
theorem claim_C10_partition_index_precondition :
    (∀ (cfg : Cfg) (ch : Chain) (notif aft : Bool) (st : BState),
      (∀ e ∈ st.todo, ∀ ps, ch.partitions e.1.deadline = some ps →
        e.1.partition < ps.length) →
      processBatch cfg ch notif aft st ≠ none) ∧
    (∀ (ch : AddChain) (sn c : Nat) (st : BState),
      (∀ loc, ch.sectorPartition = some (some loc) →
        ∀ ps, ch.partitions loc.deadline = some ps → loc.partition < ps.length) →
      addTermination ch sn c st ≠ none) := by
  constructor
  · intro cfg ch notif aft st hb
    unfold processBatch
    cases hdl : ch.provingDeadlineIndex with
    | none => simp
    | some dlIdx =>
      dsimp only
      cases hsel : selectLoop cfg dlIdx ch.partitions st.todo 0 [] with
      | none => exact absurd hsel (selectLoop_ne_none cfg dlIdx ch.partitions st.todo 0 [] hb)
      | some r =>
        obtain ⟨total, ds, td⟩ := r
        dsimp only
        split
        · simp
        split
        · simp
        split
        · simp
        split
        · simp
        split
        · simp
        split
        · simp
        cases ch.sendResult <;> simp
  · intro ch sn c st hb
    unfold addTermination
    cases hsp : ch.sectorPartition with
    | none => simp
    | some o =>
      cases o with
      | none => simp
      | some loc =>
        dsimp only
        cases hps : ch.partitions loc.deadline with
        | none => simp
        | some parts =>
          dsimp only
          cases hget : parts.get? loc.partition with
          | none =>
            have h1 := hb loc hsp parts hps
            have h2 := List.get?_eq_none.mp hget
            omega
          | some live =>
            dsimp only
            split <;> simp

theorem claim_C10_witness :
    (processBatch ⟨48, 10, 10, 10, 1⟩
        ⟨some 0, fun d => if d = 5 then some [{0}] else none, true, true, true, some "wa"⟩
        false false ⟨[(⟨5, 0⟩, {0})], []⟩ ≠ none) ∧
    (addTermination ⟨some (some ⟨5, 0⟩), fun d => if d = 5 then some [{2}] else none⟩ 2 0
        ⟨[], []⟩ ≠ none) :=
  ⟨claim_C10_partition_index_precondition.1 ⟨48, 10, 10, 10, 1⟩
      ⟨some 0, fun d => if d = 5 then some [{0}] else none, true, true, true, some "wa"⟩
      false false ⟨[(⟨5, 0⟩, {0})], []⟩
      (by
        intro e he ps hps
        obtain rfl := List.mem_singleton.mp he
        dsimp only at hps
        rw [if_pos rfl] at hps
        obtain rfl : [({0} : BitField)] = ps := by injection hps
        decide),
   claim_C10_partition_index_precondition.2
      ⟨some (some ⟨5, 0⟩), fun d => if d = 5 then some [{2}] else none⟩ 2 0 ⟨[], []⟩
      (by
        intro loc hl ps hps
        simp only [Option.some.injEq] at hl
        subst hl
        dsimp only at hps
        rw [if_pos rfl] at hps
        obtain rfl : [({2} : BitField)] = ps := by injection hps
        decide)⟩

/-! ## C7: at most one delivery per waiter channel -/

theorem sublist_flatMap {α β : Type} (f : α → List β) {w' w : List α} (h : w'.Sublist w) :
    (w'.flatMap f).Sublist (w.flatMap f) := by
  induction h with
  | slnil => simp
  | cons a h ih =>
    simp only [List.flatMap_cons]
    exact ih.trans (List.sublist_append_right _ _)
  | cons₂ a h ih =>
    simp only [List.flatMap_cons]
    exact ih.append_left _

theorem subperm_nodup {l₁ l₂ : List Nat} (h : l₁ <+~ l₂) (hn : l₂.Nodup) : l₁.Nodup := by
  obtain ⟨l, hp, hs⟩ := h
  exact hp.nodup_iff.mp (hs.nodup hn)

theorem waitIds_delete_subperm (sn : Nat) (w : List (Nat × List Nat)) :
    waitIds (wDelete w sn) <+~ waitIds w :=
  (sublist_flatMap _ (List.filter_sublist w)).subperm

/-- Draining one sector: the ids handed out plus the ids still waiting
afterwards form a sub-multiset of the ids that were waiting before. -/
theorem lookup_delete_subperm (sn : Nat) :
    ∀ w : List (Nat × List Nat), (wLookup w sn ++ waitIds (wDelete w sn)) <+~ waitIds w := by
  intro w
  induction w with
  | nil => simp [wLookup, wDelete, waitIds]
  | cons e rest ih =>
    by_cases h : e.1 = sn
    · have h1 : wLookup (e :: rest) sn = e.2 := by
        simp [wLookup, List.find?_cons, h]
      have h2 : wDelete (e :: rest) sn = wDelete rest sn := by
        simp [wDelete, List.filter_cons, h]
      have h3 : waitIds (e :: rest) = e.2 ++ waitIds rest := by
        simp [waitIds]
      rw [h1, h2, h3]
      exact (List.subperm_append_left e.2).mpr (waitIds_delete_subperm sn rest)
    · have h1 : wLookup (e :: rest) sn = wLookup rest sn := by
        simp [wLookup, List.find?_cons, h]
      have h2 : wDelete (e :: rest) sn = e :: wDelete rest sn := by
        simp [wDelete, List.filter_cons, h]
      have h3 : waitIds (e :: rest) = e.2 ++ waitIds rest := by
        simp [waitIds]
      have h4 : waitIds (e :: wDelete rest sn) = e.2 ++ waitIds (wDelete rest sn) := by
        simp [waitIds]
      rw [h1, h2, h3, h4]
      have hperm : (wLookup rest sn ++ (e.2 ++ waitIds (wDelete rest sn))) ~
          (e.2 ++ (wLookup rest sn ++ waitIds (wDelete rest sn))) := by
        have hc : (wLookup rest sn ++ e.2) ++ waitIds (wDelete rest sn) ~
            (e.2 ++ wLookup rest sn) ++ waitIds (wDelete rest sn) :=
          List.Perm.append_right _ List.perm_append_comm
        simpa [List.append_assoc] using hc
      exact hperm.subperm.trans ((List.subperm_append_left e.2).mpr ih)

theorem drainSectors_subperm (mcid : String) :
    ∀ (sns : List Nat) (w : List (Nat × List Nat)) (dv : List (Nat × String)),
      ((drainSectors mcid sns w dv).2.map Prod.fst ++
        waitIds (drainSectors mcid sns w dv).1) <+~
      (dv.map Prod.fst ++ waitIds w) := by
  intro sns
  induction sns with
  | nil =>
    intro w dv
    simp only [drainSectors]
    exact List.Subperm.refl _
  | cons sn rest ih =>
    intro w dv
    simp only [drainSectors]
    refine (ih (wDelete w sn) (dv ++ (wLookup w sn).map (fun c => (c, mcid)))).trans ?_
    have h2 : ((dv ++ (wLookup w sn).map (fun c => (c, mcid))).map Prod.fst) =
        dv.map Prod.fst ++ wLookup w sn := by
      simp only [List.map_append, List.map_map]
      congr 1
      exact List.map_id _
    rw [h2, List.append_assoc]
    exact (List.subperm_append_left (dv.map Prod.fst)).mpr (lookup_delete_subperm sn w)

theorem postSend_subperm (mcid : String) :
    ∀ (ts : List TerminationDeclaration) (td : List (SectorLocation × BitField))
      (w : List (Nat × List Nat)) (dv : List (Nat × String)),
      ((postSend mcid ts td w dv).2.2.map Prod.fst ++
        waitIds (postSend mcid ts td w dv).2.1) <+~
      (dv.map Prod.fst ++ waitIds w) := by
  intro ts
  induction ts with
  | nil =>
    intro td w dv
    simp only [postSend]
    exact List.Subperm.refl _
  | cons t rest ih =>
    intro td w dv
    simp only [postSend]
    exact (ih _ _ _).trans (drainSectors_subperm mcid (bfList t.sectors) w dv)

/-- The deliveries of one `processBatch` call, together with the ids
still waiting afterwards, form a sub-multiset of the ids waiting
before: every delivered channel was waiting, is removed from `waiting`,
and is delivered to at most once within the batch. -/
theorem processBatch_subperm {cfg : Cfg} {ch : Chain} {notif aft : Bool} {st : BState}
    {out : PBOut} (h : processBatch cfg ch notif aft st = some out) :
    (out.delivered.map Prod.fst ++ waitIds out.waiting) <+~ waitIds st.waiting := by
  unfold processBatch at h
  cases hdl : ch.provingDeadlineIndex with
  | none =>
    rw [hdl] at h
    dsimp only at h
    cases h
    simpa using List.Subperm.refl (waitIds st.waiting)
  | some dlIdx =>
    rw [hdl] at h
    dsimp only at h
    cases hsel : selectLoop cfg dlIdx ch.partitions st.todo 0 [] with
    | none => rw [hsel] at h; cases h
    | some r =>
      obtain ⟨total, decls, todo1⟩ := r
      rw [hsel] at h
      dsimp only at h
      split at h
      · cases h; simpa using List.Subperm.refl (waitIds st.waiting)
      split at h
      · cases h; simpa using List.Subperm.refl (waitIds st.waiting)
      split at h
      · cases h; simpa using List.Subperm.refl (waitIds st.waiting)
      split at h
      · cases h; simpa using List.Subperm.refl (waitIds st.waiting)
      split at h
      · cases h; simpa using List.Subperm.refl (waitIds st.waiting)
      split at h
      · cases h; simpa using List.Subperm.refl (waitIds st.waiting)
      cases hsend : ch.sendResult with
      | none =>
        rw [hsend] at h
        cases h
        simpa using List.Subperm.refl (waitIds st.waiting)
      | some mcid =>
        rw [hsend] at h
        cases h
        simpa using postSend_subperm mcid decls todo1 st.waiting []

/-- An immediate (non-registering) return of `AddTermination` leaves
the batcher state untouched. -/
theorem addTermination_ret_state {ch : AddChain} {sn c : Nat} {st : BState}
    {m : String} {b : Bool} {er : Option String} {st' : BState}
    (h : addTermination ch sn c st = some (.ret m b er, st')) : st' = st := by
  unfold addTermination at h
  split at h
  · cases h; rfl
  · cases h; rfl
  · split at h
    · cases h; rfl
    · split at h
      · cases h
      · split at h
        · cases h
        · cases h; rfl

/-- A registering return of `AddTermination` appends exactly the fresh
channel `c` to `waiting[sn]`. -/
theorem addTermination_registered {ch : AddChain} {sn c : Nat} {st : BState}
    {c' : Nat} {st' : BState}
    (h : addTermination ch sn c st = some (.registered c', st')) :
    c' = c ∧ st'.waiting = wAppend st.waiting sn c := by
  unfold addTermination at h
  split at h
  · cases h
  · cases h
  · split at h
    · cases h
    · split at h
      · cases h
      · split at h
        · cases h; exact ⟨rfl, rfl⟩
        · cases h

theorem waitIds_wAppend (sn c : Nat) :
    ∀ w : List (Nat × List Nat), waitIds (wAppend w sn c) ~ waitIds w ++ [c] := by
  intro w
  induction w with
  | nil => simp [wAppend, waitIds]
  | cons e rest ih =>
    by_cases h : e.1 = sn
    · simp only [wAppend, if_pos h, waitIds, List.flatMap_cons]
      have hc : (e.2 ++ [c]) ++ rest.flatMap (fun x => x.2) ~
          (e.2 ++ rest.flatMap (fun x => x.2)) ++ [c] := by
        have h2 : [c] ++ rest.flatMap (fun x => x.2) ~ rest.flatMap (fun x => x.2) ++ [c] :=
          List.perm_append_comm
        calc (e.2 ++ [c]) ++ rest.flatMap (fun x => x.2)
            = e.2 ++ ([c] ++ rest.flatMap (fun x => x.2)) := by rw [List.append_assoc]
          _ ~ e.2 ++ (rest.flatMap (fun x => x.2) ++ [c]) := h2.append_left e.2
          _ = (e.2 ++ rest.flatMap (fun x => x.2)) ++ [c] := by rw [List.append_assoc]
      exact hc
    · simp only [wAppend, if_neg h, waitIds, List.flatMap_cons]
      calc e.2 ++ (wAppend rest sn c).flatMap (fun x => x.2)
          ~ e.2 ++ (rest.flatMap (fun x => x.2) ++ [c]) := by
            have := ih
            simp only [waitIds] at this
            exact this.append_left e.2
        _ = (e.2 ++ rest.flatMap (fun x => x.2)) ++ [c] := by rw [List.append_assoc]

/-- The lifetime invariant: the already-delivered channel ids together
with the ids still enrolled in `waiting` are pairwise distinct, and all
of them are below the fresh-channel counter. -/
theorem stepEv_inv (t : TraceState) (ev : Ev)
    (hn : (t.log.map Prod.fst ++ waitIds t.st.waiting).Nodup)
    (hb : ∀ x ∈ t.log.map Prod.fst ++ waitIds t.st.waiting, x < t.nextChan) :
    ((stepEv t ev).log.map Prod.fst ++ waitIds (stepEv t ev).st.waiting).Nodup ∧
    (∀ x ∈ (stepEv t ev).log.map Prod.fst ++ waitIds (stepEv t ev).st.waiting,
      x < (stepEv t ev).nextChan) := by
  cases ev with
  | add ch sn =>
    simp only [stepEv]
    cases ha : addTermination ch sn t.nextChan t.st with
    | none => exact ⟨hn, hb⟩
    | some r =>
      obtain ⟨res, st'⟩ := r
      cases res with
      | ret m b er =>
        obtain rfl := addTermination_ret_state ha
        exact ⟨hn, hb⟩
      | registered c' =>
        obtain ⟨rfl, hw⟩ := addTermination_registered ha
        dsimp only
        have hperm : waitIds st'.waiting ~ waitIds t.st.waiting ++ [t.nextChan] := by
          rw [hw]
          exact waitIds_wAppend sn t.nextChan t.st.waiting
        have hperm2 : (t.log.map Prod.fst ++ waitIds st'.waiting) ~
            ((t.log.map Prod.fst ++ waitIds t.st.waiting) ++ [t.nextChan]) := by
          calc t.log.map Prod.fst ++ waitIds st'.waiting
              ~ t.log.map Prod.fst ++ (waitIds t.st.waiting ++ [t.nextChan]) :=
                hperm.append_left _
            _ = (t.log.map Prod.fst ++ waitIds t.st.waiting) ++ [t.nextChan] := by
                rw [List.append_assoc]
        constructor
        · rw [hperm2.nodup_iff]
          refine List.Nodup.append hn (List.nodup_singleton _) ?_
          intro a ha1 ha2
          have he := List.mem_singleton.mp ha2
          have hlt := hb a ha1
          omega
        · intro x hx
          rcases List.mem_append.mp (hperm2.subset hx) with hx1 | hx1
          · exact Nat.lt_succ_of_lt (hb x hx1)
          · have he := List.mem_singleton.mp hx1
            omega
  | batch cfg ch nf af =>
    simp only [stepEv]
    cases hp : processBatch cfg ch nf af t.st with
    | none => exact ⟨hn, hb⟩
    | some out =>
      dsimp only
      have hsp := processBatch_subperm hp
      have hsub : (t.log.map Prod.fst ++
          (out.delivered.map Prod.fst ++ waitIds out.waiting)) <+~
          (t.log.map Prod.fst ++ waitIds t.st.waiting) :=
        (List.subperm_append_left _).mpr hsp
      have heq : ((t.log ++ out.delivered).map Prod.fst ++ waitIds out.waiting) =
          t.log.map Prod.fst ++ (out.delivered.map Prod.fst ++ waitIds out.waiting) := by
        rw [List.map_append, List.append_assoc]
      constructor
      · rw [heq]
        exact subperm_nodup hsub hn
      · intro x hx
        rw [heq] at hx
        exact hb x (hsub.subset hx)

theorem runEvents_inv :
    ∀ (evs : List Ev) (t : TraceState),
      (t.log.map Prod.fst ++ waitIds t.st.waiting).Nodup →
      (∀ x ∈ t.log.map Prod.fst ++ waitIds t.st.waiting, x < t.nextChan) →
      ((evs.foldl stepEv t).log.map Prod.fst ++
        waitIds (evs.foldl stepEv t).st.waiting).Nodup := by
  intro evs
  induction evs with
  | nil => intro t h1 h2; exact h1
  | cons ev rest ih =>
    intro t h1 h2
    simp only [List.foldl_cons]
    obtain ⟨g1, g2⟩ := stepEv_inv t ev h1 h2
    exact ih (stepEv t ev) g1 g2

/-- C7: over any batcher lifetime — any interleaving of
`AddTermination` registrations (each appending one fresh waiter
channel under one sector number) and `processBatch` runs (each
draining and deleting the waiter entries of the sectors it submitted)
— every waiter channel receives at most one message id: the delivery
log never repeats a channel. -/
theorem claim_C7_at_most_one_delivery (evs : List Ev) :
    ((runEvents evs).log.map Prod.fst).Nodup := by
  unfold runEvents
  have h := runEvents_inv evs ⟨⟨[], []⟩, 0, []⟩ (by simp [waitIds]) (by simp [waitIds])
  exact h.of_append_left
